import Mathlib

/-!
Verification of the two tutorial notebooks of this repository:

* the `asin` element-wise kernel notebook (libdevice / `tl.math`), and
* `08-experimental-block-pointer.ipynb`, the tiled matrix-multiply kernel
  `matmul_kernel_with_block_pointers` with its host wrapper `matmul`.

Device memory is modelled as a flat map `Nat → Int`; a 2-D tensor is a base
pointer plus shape and strides into that memory, matching `tl.make_block_ptr`.
Machine floating point is idealised as exact integer arithmetic; the fp16
down-cast of the matmul kernel is an explicit function parameter `f16`, so the
placement of the cast is visible in the definitions.  The external device
function `asin` is an abstract function parameter `asinF`.
-/

/-- `triton.cdiv(a, b)`: ceiling division, as used for grid sizes and the
number of iterations of the K loop. -/
def tlCdiv (a b : Nat) : Nat := (a + b - 1) / b

theorem le_tlCdiv_mul (a b : Nat) (hb : 0 < b) : a ≤ tlCdiv a b * b := by
  unfold tlCdiv
  have h1 := Nat.div_add_mod (a + b - 1) b
  have h2 : (a + b - 1) % b < b := Nat.mod_lt _ hb
  have h3 : (a + b - 1) / b * b = b * ((a + b - 1) / b) := Nat.mul_comm _ _
  omega

theorem div_lt_tlCdiv (a b n : Nat) (hb : 0 < b) (ha : a < n) :
    a / b < tlCdiv n b :=
  (Nat.div_lt_iff_lt_mul hb).mpr (Nat.lt_of_lt_of_le ha (le_tlCdiv_mul n b hb))

/-- The grouped program-id mapping of `matmul_kernel_with_block_pointers`:
`pid` is mapped to the tile coordinates `(pid_m, pid_n)` via `group_id`,
`first_pid_m` and `group_size_m`, exactly as in the kernel source. -/
def pidPair (M N BM BN G pid : Nat) : Nat × Nat :=
  let num_pid_m := tlCdiv M BM
  let num_pid_n := tlCdiv N BN
  let num_pid_in_group := G * num_pid_n
  let group_id := pid / num_pid_in_group
  let first_pid_m := group_id * G
  let group_size_m := min (num_pid_m - first_pid_m) G
  (first_pid_m + pid % group_size_m, (pid % num_pid_in_group) / group_size_m)

theorem pidPair_fst_def (M N BM BN G pid : Nat) :
    (pidPair M N BM BN G pid).1 =
      pid / (G * tlCdiv N BN) * G +
        pid % min (tlCdiv M BM - pid / (G * tlCdiv N BN) * G) G := rfl

theorem pidPair_snd_def (M N BM BN G pid : Nat) :
    (pidPair M N BM BN G pid).2 =
      (pid % (G * tlCdiv N BN)) /
        min (tlCdiv M BM - pid / (G * tlCdiv N BN) * G) G := rfl

/-- For a pid on the grid, `first_pid_m` is a valid row-tile index. -/
theorem first_pid_m_lt (M N BM BN G pid : Nat) (hG : 0 < G)
    (hpid : pid < tlCdiv M BM * tlCdiv N BN) :
    pid / (G * tlCdiv N BN) * G < tlCdiv M BM := by
  set npm := tlCdiv M BM with hnpm
  set npn := tlCdiv N BN with hnpn
  have hnpn0 : 0 < npn := by
    rcases Nat.eq_zero_or_pos npn with h | h
    · rw [h, Nat.mul_zero] at hpid; omega
    · exact h
  have h1 : pid / (G * npn) * (G * npn) ≤ pid := Nat.div_mul_le_self _ _
  have h2 : pid / (G * npn) * G * npn ≤ pid := by
    rw [Nat.mul_assoc]; exact h1
  have h3 : pid / (G * npn) * G * npn < npm * npn := Nat.lt_of_le_of_lt h2 hpid
  exact lt_of_mul_lt_mul_right h3 (Nat.zero_le npn)

/-- For a pid on the grid, `group_size_m` is positive. -/
theorem group_size_m_pos (M N BM BN G pid : Nat) (hG : 0 < G)
    (hpid : pid < tlCdiv M BM * tlCdiv N BN) :
    0 < min (tlCdiv M BM - pid / (G * tlCdiv N BN) * G) G := by
  have h := first_pid_m_lt M N BM BN G pid hG hpid
  omega

theorem pidPair_lt (M N BM BN G pid : Nat) (hG : 0 < G)
    (hpid : pid < tlCdiv M BM * tlCdiv N BN) :
    (pidPair M N BM BN G pid).1 < tlCdiv M BM ∧
      (pidPair M N BM BN G pid).2 < tlCdiv N BN := by
  set npm := tlCdiv M BM with hnpm
  set npn := tlCdiv N BN with hnpn
  have hnpn0 : 0 < npn := by
    rcases Nat.eq_zero_or_pos npn with h | h
    · rw [h, Nat.mul_zero] at hpid; omega
    · exact h
  have hfpm := first_pid_m_lt M N BM BN G pid hG hpid
  have hgsm := group_size_m_pos M N BM BN G pid hG hpid
  rw [← hnpm, ← hnpn] at hfpm hgsm
  set gid := pid / (G * npn) with hgid
  set fpm := gid * G with hfpmdef
  set gsm := min (npm - fpm) G with hgsmdef
  constructor
  · rw [pidPair_fst_def, ← hnpm, ← hnpn, ← hgid, ← hfpmdef, ← hgsmdef]
    have hmod : pid % gsm < gsm := Nat.mod_lt _ hgsm
    omega
  · rw [pidPair_snd_def, ← hnpm, ← hnpn, ← hgid, ← hfpmdef, ← hgsmdef]
    rcases le_or_lt G (npm - fpm) with hfull | hpart
    · -- full group: group_size_m = G
      have hgsmG : gsm = G := by omega
      rw [hgsmG]
      have hr : pid % (G * npn) < G * npn :=
        Nat.mod_lt _ (Nat.mul_pos hG hnpn0)
      exact (Nat.div_lt_iff_lt_mul hG).mpr (by rw [Nat.mul_comm] at hr ⊢; exact hr)
    · -- last, partial group: group_size_m = npm - first_pid_m
      have hgsmP : gsm = npm - fpm := by omega
      have hdm := Nat.div_add_mod pid (G * npn)
      rw [← hgid] at hdm
      have hkey : (npm - fpm) * npn = npm * npn - G * npn * gid := by
        rw [Nat.sub_mul, hfpmdef]
        have : gid * G * npn = G * npn * gid := by ring
        rw [Nat.mul_assoc, ← this, Nat.mul_assoc]
      have hrlt : pid % (G * npn) < gsm * npn := by
        rw [hgsmP, hkey]
        omega
      exact (Nat.div_lt_iff_lt_mul hgsm).mpr (by rw [Nat.mul_comm npn gsm]; exact hrlt)

/-- The grouped pid mapping is injective on the grid. -/
theorem pidPair_injective (M N BM BN G : Nat) (hG : 0 < G)
    (p q : Nat) (hp : p < tlCdiv M BM * tlCdiv N BN)
    (hq : q < tlCdiv M BM * tlCdiv N BN)
    (heq : pidPair M N BM BN G p = pidPair M N BM BN G q) : p = q := by
  set npm := tlCdiv M BM with hnpm
  set npn := tlCdiv N BN with hnpn
  have hnpn0 : 0 < npn := by
    rcases Nat.eq_zero_or_pos npn with h | h
    · rw [h, Nat.mul_zero] at hp; omega
    · exact h
  have hgsmp := group_size_m_pos M N BM BN G p hG hp
  have hgsmq := group_size_m_pos M N BM BN G q hG hq
  rw [← hnpm, ← hnpn] at hgsmp hgsmq
  have h1 := congrArg Prod.fst heq
  have h2 := congrArg Prod.snd heq
  rw [pidPair_fst_def, pidPair_fst_def, ← hnpm, ← hnpn] at h1
  rw [pidPair_snd_def, pidPair_snd_def, ← hnpm, ← hnpn] at h2
  set gidp := p / (G * npn) with hgidp
  set gidq := q / (G * npn) with hgidq
  set gsmp := min (npm - gidp * G) G with hgsmpd
  set gsmq := min (npm - gidq * G) G with hgsmqd
  have hsp : p % gsmp < G := Nat.lt_of_lt_of_le (Nat.mod_lt _ hgsmp) (min_le_right _ _)
  have hsq : q % gsmq < G := Nat.lt_of_lt_of_le (Nat.mod_lt _ hgsmq) (min_le_right _ _)
  -- recover group_id from pid_m
  have hgid : gidp = gidq := by
    have hgp : (gidp * G + p % gsmp) / G = gidp := by
      rw [Nat.mul_comm gidp G, Nat.mul_add_div hG, Nat.div_eq_of_lt hsp, Nat.add_zero]
    have hgq : (gidq * G + q % gsmq) / G = gidq := by
      rw [Nat.mul_comm gidq G, Nat.mul_add_div hG, Nat.div_eq_of_lt hsq, Nat.add_zero]
    rw [← hgp, ← hgq, h1]
  have hgsm : gsmp = gsmq := by rw [hgsmpd, hgsmqd, hgid]
  rw [← hgsm, ← hgid] at h1
  rw [← hgsm] at h2
  have hmodeq : p % gsmp = q % gsmp := by omega
  -- recover pid from the pair within the group
  have hdp := Nat.div_add_mod p (G * npn)
  have hdq := Nat.div_add_mod q (G * npn)
  rw [← hgidp] at hdp
  rw [← hgidq] at hdq
  have hrp : p % gsmp = (G * npn * gidp + p % (G * npn)) % gsmp := by rw [hdp]
  have hrq : q % gsmp = (G * npn * gidq + q % (G * npn)) % gsmp := by
    rw [hgsm, hdq]
  have hcancel : p % (G * npn) % gsmp = q % (G * npn) % gsmp := by
    have hmm : (G * npn * gidp + p % (G * npn)) % gsmp =
        (G * npn * gidp + q % (G * npn)) % gsmp := by
      rw [← hrp, hmodeq, hrq, hgid]
    have : p % (G * npn) ≡ q % (G * npn) [MOD gsmp] :=
      Nat.ModEq.add_left_cancel' (G * npn * gidp) hmm
    exact this
  have hdiv : p % (G * npn) / gsmp = q % (G * npn) / gsmp := h2
  have hreq : p % (G * npn) = q % (G * npn) := by
    have e1 := Nat.div_add_mod (p % (G * npn)) gsmp
    have e2 := Nat.div_add_mod (q % (G * npn)) gsmp
    rw [hdiv] at e1
    omega
  rw [← hgid] at hdq
  omega

/-- The grouped pid mapping covers every tile of the grid. -/
theorem pidPair_surjective (M N BM BN G : Nat) (hG : 0 < G)
    (m n : Nat) (hm : m < tlCdiv M BM) (hn : n < tlCdiv N BN) :
    ∃ pid, pid < tlCdiv M BM * tlCdiv N BN ∧ pidPair M N BM BN G pid = (m, n) := by
  classical
  have hmain :=
    Finset.surj_on_of_inj_on_of_card_le
      (s := Finset.range (tlCdiv M BM * tlCdiv N BN))
      (t := Finset.range (tlCdiv M BM) ×ˢ Finset.range (tlCdiv N BN))
      (fun a _ => pidPair M N BM BN G a)
      (by
        intro a ha
        rw [Finset.mem_range] at ha
        have h := pidPair_lt M N BM BN G a hG ha
        rw [Finset.mem_product, Finset.mem_range, Finset.mem_range]
        exact h)
      (by
        intro a b ha hb hab
        rw [Finset.mem_range] at ha hb
        exact pidPair_injective M N BM BN G hG a b ha hb hab)
      (by rw [Finset.card_product, Finset.card_range, Finset.card_range,
        Finset.card_range])
  have hmem : (m, n) ∈ Finset.range (tlCdiv M BM) ×ˢ Finset.range (tlCdiv N BN) := by
    rw [Finset.mem_product, Finset.mem_range, Finset.mem_range]
    exact ⟨hm, hn⟩
  obtain ⟨a, ha, hval⟩ := hmain (m, n) hmem
  rw [Finset.mem_range] at ha
  exact ⟨a, ha, hval.symm⟩

/-! ## Flat device memory, block-pointer loads and stores -/

/-- `tl.load` of one lane `(r, c)` of a block pointer with
`boundary_check=(0, 1)` and the default `zero` padding: the parent tensor has
base `base`, shape `(shape0, shape1)` and strides `(s0, s1)`; the block has
offsets `(off0, off1)`.  Out-of-bounds lanes are padded with `0` and perform
no memory read. -/
def loadBlock (m : Nat → Int) (base s0 s1 shape0 shape1 off0 off1 r c : Nat) : Int :=
  if off0 + r < shape0 ∧ off1 + c < shape1 then
    m (base + (off0 + r) * s0 + (off1 + c) * s1)
  else 0

/-- One lane of a boundary-checked `tl.store`: lane `(r, c)` is written only
when it is in bounds of the parent tensor. -/
def storeLane (base s0 s1 shape0 shape1 off0 off1 : Nat) (v : Nat → Nat → Int)
    (r : Nat) (m : Nat → Int) (c : Nat) : Nat → Int :=
  if off0 + r < shape0 ∧ off1 + c < shape1 then
    fun a => if a = base + (off0 + r) * s0 + (off1 + c) * s1 then v r c else m a
  else m

/-- `tl.store` of a whole `B0 × B1` block with `boundary_check=(0, 1)`. -/
def storeBlock (base s0 s1 shape0 shape1 off0 off1 B0 B1 : Nat)
    (v : Nat → Nat → Int) (m : Nat → Int) : Nat → Int :=
  (List.range B0).foldl
    (fun mm r =>
      (List.range B1).foldl (storeLane base s0 s1 shape0 shape1 off0 off1 v r) mm)
    m

/-! Generic lemmas about folds of memory updates. -/

theorem foldl_preserve {α : Type} (step : (Nat → Int) → α → (Nat → Int))
    (addr : Nat) (l : List α)
    (h : ∀ m q, q ∈ l → step m q addr = m addr) :
    ∀ m : Nat → Int, (l.foldl step m) addr = m addr := by
  induction l with
  | nil => intro m; rfl
  | cons q l ih =>
    intro m
    rw [List.foldl_cons]
    rw [ih (fun m q hq => h m q (List.mem_cons_of_mem _ hq))]
    exact h m q (List.mem_cons_self q l)

/-- If `p` is the unique element of `l` that writes `addr`, and every step
preserves the invariant `Inv` under which `p` writes the value `v`, then the
fold leaves `v` at `addr`. -/
theorem foldl_unique_write {α : Type} (Inv : (Nat → Int) → Prop)
    (step : (Nat → Int) → α → (Nat → Int)) (addr : Nat) (v : Int) (p : α)
    (l : List α)
    (hpres : ∀ m q, q ∈ l → Inv m → Inv (step m q))
    (hp : ∀ m, Inv m → step m p addr = v)
    (hq : ∀ m q, q ∈ l → q ≠ p → step m q addr = m addr) :
    ∀ m : Nat → Int, Inv m → p ∈ l → (l.foldl step m) addr = v := by
  induction l with
  | nil => intro m _ hmem; exact absurd hmem (List.not_mem_nil _)
  | cons q l ih =>
    intro m hInv hmem
    rw [List.foldl_cons]
    by_cases hpl : p ∈ l
    · exact ih (fun m r hr => hpres m r (List.mem_cons_of_mem _ hr))
        (fun m r hr hrp => hq m r (List.mem_cons_of_mem _ hr) hrp)
        (step m q) (hpres m q (List.mem_cons_self q l) hInv) hpl
    · have hqp : q = p := by
        rcases List.mem_cons.mp hmem with h | h
        · exact h.symm
        · exact absurd h hpl
      subst hqp
      rw [foldl_preserve step addr l
        (fun m r hr => hq m r (List.mem_cons_of_mem _ hr)
          (fun hrp => hpl (hrp ▸ hr)))]
      exact hp m hInv

/-- A `storeBlock` leaves `addr` unchanged when no in-bounds lane of the block
maps to `addr`. -/
theorem storeBlock_ne (base s0 s1 shape0 shape1 off0 off1 B0 B1 : Nat)
    (v : Nat → Nat → Int) (m : Nat → Int) (addr : Nat)
    (h : ∀ r c, r < B0 → c < B1 → off0 + r < shape0 → off1 + c < shape1 →
      base + (off0 + r) * s0 + (off1 + c) * s1 ≠ addr) :
    storeBlock base s0 s1 shape0 shape1 off0 off1 B0 B1 v m addr = m addr := by
  unfold storeBlock
  apply foldl_preserve
  intro mm r hr
  apply foldl_preserve
  intro mmm c hc
  unfold storeLane
  by_cases hb : off0 + r < shape0 ∧ off1 + c < shape1
  · rw [if_pos hb]
    have hne := h r c (List.mem_range.mp hr) (List.mem_range.mp hc) hb.1 hb.2
    exact if_neg (fun he => hne he.symm)
  · rw [if_neg hb]

/-- A `storeBlock` puts `v r c` at the address of the in-bounds lane `(r, c)`,
provided `(r, c)` is the only lane of the block mapping to that address. -/
theorem storeBlock_eq (base s0 s1 shape0 shape1 off0 off1 B0 B1 : Nat)
    (v : Nat → Nat → Int) (m : Nat → Int) (r c : Nat)
    (hr : r < B0) (hc : c < B1) (h0 : off0 + r < shape0) (h1 : off1 + c < shape1)
    (huniq : ∀ r2 c2, r2 < B0 → c2 < B1 → off0 + r2 < shape0 → off1 + c2 < shape1 →
      base + (off0 + r2) * s0 + (off1 + c2) * s1 =
        base + (off0 + r) * s0 + (off1 + c) * s1 → r2 = r ∧ c2 = c) :
    storeBlock base s0 s1 shape0 shape1 off0 off1 B0 B1 v m
      (base + (off0 + r) * s0 + (off1 + c) * s1) = v r c := by
  unfold storeBlock
  apply foldl_unique_write (fun _ => True) _ _ _ r _
    (fun _ _ _ _ => trivial)
    (fun mm _ => ?_) (fun mm r2 hr2 hr2r => ?_) m trivial (List.mem_range.mpr hr)
  · -- the row of the lane: inner fold over columns
    apply foldl_unique_write (fun _ => True) _ _ _ c _
      (fun _ _ _ _ => trivial)
      (fun mmm _ => ?_) (fun mmm c2 hc2 hc2c => ?_) mm trivial (List.mem_range.mpr hc)
    · unfold storeLane
      rw [if_pos ⟨h0, h1⟩, if_pos rfl]
    · unfold storeLane
      by_cases hb : off0 + r < shape0 ∧ off1 + c2 < shape1
      · rw [if_pos hb]
        refine if_neg (fun he => hc2c ?_)
        exact (huniq r c2 hr (List.mem_range.mp hc2) hb.1 hb.2 he.symm).2
      · rw [if_neg hb]
  · -- other rows never touch the address
    apply foldl_preserve
    intro mmm c2 hc2
    unfold storeLane
    by_cases hb : off0 + r2 < shape0 ∧ off1 + c2 < shape1
    · rw [if_pos hb]
      refine if_neg (fun he => hr2r ?_)
      exact (huniq r2 c2 (List.mem_range.mp hr2) (List.mem_range.mp hc2)
        hb.1 hb.2 he.symm).1
    · rw [if_neg hb]

/-! ## The matmul kernel -/

/-- One entry `(r, c)` of the fp32 accumulator of
`matmul_kernel_with_block_pointers` after `t` iterations of the K loop.
`accumulator = tl.zeros(...)`; each iteration adds `tl.dot(a, b)` where `a`
and `b` are the boundary-checked loads of the current A and B blocks (the
block pointers having been advanced by `(0, BLOCK_SIZE_K)` and
`(BLOCK_SIZE_K, 0)` respectively at each step).  No down-cast occurs here. -/
def accEntry (m : Nat → Int) (baseA baseB M N K sam sak sbk sbn BM BN BK : Nat)
    (pm pn r c : Nat) : Nat → Int
  | 0 => 0
  | t + 1 =>
    accEntry m baseA baseB M N K sam sak sbk sbn BM BN BK pm pn r c t +
      ∑ kk ∈ Finset.range BK,
        loadBlock m baseA sam sak M K (pm * BM) (t * BK) r kk *
          loadBlock m baseB sbk sbn K N (t * BK) (pn * BN) kk c

/-- One program of `matmul_kernel_with_block_pointers`: map `pid` to its tile
through the grouped ordering, run the K loop (`tlCdiv K BK` iterations of
`range(0, K, BLOCK_SIZE_K)`), down-cast the accumulator once with `f16`, and
store the `BLOCK_SIZE_M × BLOCK_SIZE_N` tile of C with boundary checks. -/
def matmulProgram (f16 : Int → Int)
    (baseA baseB baseC M N K sam sak sbk sbn scm scn BM BN BK G pid : Nat)
    (m : Nat → Int) : Nat → Int :=
  storeBlock baseC scm scn M N ((pidPair M N BM BN G pid).1 * BM)
    ((pidPair M N BM BN G pid).2 * BN) BM BN
    (fun r c =>
      f16 (accEntry m baseA baseB M N K sam sak sbk sbn BM BN BK
        (pidPair M N BM BN G pid).1 (pidPair M N BM BN G pid).2 r c
        (tlCdiv K BK)))
    m

/-- The 1-D launch of the matmul kernel on its grid of
`cdiv(M, BLOCK_SIZE_M) * cdiv(N, BLOCK_SIZE_N)` programs. -/
def matmulLaunchMem (f16 : Int → Int)
    (baseA baseB baseC M N K sam sak sbk sbn scm scn BM BN BK G : Nat)
    (m : Nat → Int) : Nat → Int :=
  (List.range (tlCdiv M BM * tlCdiv N BN)).foldl
    (fun mm pid =>
      matmulProgram f16 baseA baseB baseC M N K sam sak sbk sbn scm scn
        BM BN BK G pid mm)
    m

/-- A 2-D tensor on the host side: shape, strides, and its flat storage. -/
structure Tensor2 where
  rows : Nat
  cols : Nat
  stride0 : Nat
  stride1 : Nat
  data : Nat → Int

/-- `Tensor.is_contiguous` for a row-major 2-D tensor. -/
def Tensor2.is_contiguous (t : Tensor2) : Bool :=
  (t.stride0 == t.cols) && (t.stride1 == 1)

/-- The flat device memory holding A followed by B (with the fresh C region
allocated right after them). -/
def packMem (a b : Tensor2) : Nat → Int := fun addr =>
  if addr < a.rows * a.cols then a.data addr
  else if addr < a.rows * a.cols + b.rows * b.cols then
    b.data (addr - a.rows * a.cols)
  else 0

/-- The host wrapper `matmul(a, b)`: check the shape and contiguity
constraints (raising `AssertionError`, modelled as `none`, when any fails),
allocate the output and launch the kernel on the 1-D grid.  A, B and the
fresh C are laid out one after the other in a flat memory.  The fp16
down-cast is idealised as the identity on exact integers. -/
def matmul (BM BN BK G : Nat) (a b : Tensor2) : Option Tensor2 :=
  if (a.cols == b.rows) && a.is_contiguous && b.is_contiguous then
    some ⟨a.rows, b.cols, b.cols, 1, fun addr =>
      matmulLaunchMem (fun v => v) 0 (a.rows * a.cols)
        (a.rows * a.cols + b.rows * b.cols) a.rows b.cols b.rows
        a.stride0 a.stride1 b.stride0 b.stride1 b.cols 1 BM BN BK G
        (packMem a b) (a.rows * a.cols + b.rows * b.cols + addr)⟩
  else none

/-! ## The asin kernel -/

/-- One lane of the `asin` kernel: offset `base + l` (with
`base = pid * BLOCK_SIZE`), masked by `offsets < n_elements`; an unmasked
lane stores `asin(x[offset])` to `y[offset]`. -/
def asinStore (asinF : Int → Int) (x : Nat → Int) (n base : Nat)
    (m : Nat → Int) (l : Nat) : Nat → Int :=
  if base + l < n then
    fun a => if a = base + l then asinF (x (base + l)) else m a
  else m

/-- `asin_kernel`: program `pid` computes `offsets = pid * BLOCK_SIZE +
tl.arange(0, BLOCK_SIZE)`, loads `x` under the mask `offsets < n_elements`,
applies the device function, and stores the result under the same mask. -/
def asin_kernel (asinF : Int → Int) (x : Nat → Int) (n BS pid : Nat)
    (y : Nat → Int) : Nat → Int :=
  (List.range BS).foldl (asinStore asinF x n (pid * BS)) y

/-- The launch `asin_kernel[grid](x, output, n_elements, BLOCK_SIZE=...)` with
`grid = (triton.cdiv(n_elements, BLOCK_SIZE),)`. -/
def asinLaunch (asinF : Int → Int) (x : Nat → Int) (n BS : Nat)
    (y : Nat → Int) : Nat → Int :=
  (List.range (tlCdiv n BS)).foldl
    (fun m pid => asin_kernel asinF x n BS pid m) y

/-- A 1-D tensor on the host side: element count, device flag, flat data. -/
structure Tensor1 where
  numel : Nat
  is_cuda : Bool
  data : Nat → Int

/-- The default-libdevice-path cell of the asin notebook: it asserts
`x.is_cuda and output_triton.is_cuda` (failure modelled as `none`) and then
launches `asin_kernel` on `grid` with `n_elements = output_torch.numel()`. -/
def asinDefaultCell (asinF : Int → Int) (x out : Tensor1) (BS : Nat) :
    Option Tensor1 :=
  if x.is_cuda && out.is_cuda then
    some ⟨out.numel, out.is_cuda, asinLaunch asinF x.data x.numel BS out.data⟩
  else none

/-- The custom-libdevice-path cell of the asin notebook: it allocates
`output_triton = torch.empty_like(x)` (uninitialised contents `garbage`) and
launches the kernel directly, with no assertion of its own. -/
def asinCustomCell (asinF : Int → Int) (x : Tensor1) (garbage : Nat → Int)
    (BS : Nat) : Option Tensor1 :=
  some ⟨x.numel, x.is_cuda, asinLaunch asinF x.data x.numel BS garbage⟩

/-! ## Behaviour of the asin kernel -/

theorem asinStore_fold (asinF : Int → Int) (x : Nat → Int) (n base : Nat) :
    ∀ (BS : Nat) (y : Nat → Int) (addr : Nat),
      (List.range BS).foldl (asinStore asinF x n base) y addr =
        if base ≤ addr ∧ addr < base + BS ∧ addr < n then asinF (x addr)
        else y addr := by
  intro BS
  induction BS with
  | zero =>
    intro y addr
    rw [List.range_zero, List.foldl_nil]
    have : ¬(base ≤ addr ∧ addr < base + 0 ∧ addr < n) := by omega
    rw [if_neg this]
  | succ B ih =>
    intro y addr
    rw [List.range_succ, List.foldl_append, List.foldl_cons, List.foldl_nil]
    set prev := List.foldl (asinStore asinF x n base) y (List.range B) with hprev
    have hp : prev addr =
        if base ≤ addr ∧ addr < base + B ∧ addr < n then asinF (x addr)
        else y addr := ih y addr
    unfold asinStore
    by_cases hmask : base + B < n
    · rw [if_pos hmask]
      by_cases haddr : addr = base + B
      · subst haddr
        rw [if_pos rfl, if_pos (by omega)]
      · rw [if_neg haddr, hp]
        by_cases hin : base ≤ addr ∧ addr < base + B ∧ addr < n
        · rw [if_pos hin, if_pos (by omega)]
        · rw [if_neg hin, if_neg (by omega)]
    · rw [if_neg hmask, hp]
      by_cases hin : base ≤ addr ∧ addr < base + B ∧ addr < n
      · rw [if_pos hin, if_pos (by omega)]
      · rw [if_neg hin, if_neg (by omega)]

/-- Full read-characterisation of one program of the asin kernel. -/
theorem asin_kernel_read (asinF : Int → Int) (x : Nat → Int) (n BS pid : Nat)
    (y : Nat → Int) (addr : Nat) :
    asin_kernel asinF x n BS pid y addr =
      if pid * BS ≤ addr ∧ addr < pid * BS + BS ∧ addr < n then asinF (x addr)
      else y addr :=
  asinStore_fold asinF x n (pid * BS) BS y addr

/-- Full read-characterisation of the asin launch on its grid. -/
theorem asinLaunch_read (asinF : Int → Int) (x : Nat → Int) (n BS : Nat)
    (y : Nat → Int) (addr : Nat) (hBS : 0 < BS) :
    asinLaunch asinF x n BS y addr =
      if addr < n then asinF (x addr) else y addr := by
  unfold asinLaunch
  by_cases h : addr < n
  · rw [if_pos h]
    apply foldl_unique_write (fun _ => True) _ addr _ (addr / BS) _
      (fun _ _ _ _ => trivial) (fun m _ => ?_) (fun m q hq hqp => ?_)
      y trivial (List.mem_range.mpr (div_lt_tlCdiv addr BS n hBS h))
    · rw [asin_kernel_read]
      refine if_pos ⟨Nat.div_mul_le_self addr BS, ?_, h⟩
      have h1 := Nat.div_add_mod addr BS
      have h2 : addr % BS < BS := Nat.mod_lt _ hBS
      have h3 : addr / BS * BS = BS * (addr / BS) := Nat.mul_comm _ _
      omega
    · rw [asin_kernel_read]
      refine if_neg (fun hcond => hqp ?_)
      exact (Nat.div_eq_of_lt_le hcond.1 (by
        have := hcond.2.1
        rw [Nat.succ_mul]
        omega)).symm ▸ rfl
  · rw [if_neg h]
    apply foldl_preserve
    intro m q hq
    rw [asin_kernel_read]
    exact if_neg (by omega)

/-- C2: on the grid of `cdiv(n_elements, BLOCK_SIZE)` programs, program `pid`
of the asin kernel touches exactly the contiguous offset range
`[pid*BLOCK_SIZE, (pid+1)*BLOCK_SIZE)`; every offset `i < n_elements` receives
`y[i] = asin(x[i])`; offsets `≥ n_elements` are masked: nothing is stored
there, and the result does not depend on `x` at any such offset (no load). -/
theorem asin_kernel_block_behaviour (asinF : Int → Int) (x : Nat → Int)
    (n BS : Nat) (y : Nat → Int) (hBS : 0 < BS) :
    (∀ pid addr, addr < pid * BS ∨ pid * BS + BS ≤ addr →
      asin_kernel asinF x n BS pid y addr = y addr) ∧
    (∀ pid l, l < BS → pid * BS + l < n →
      asin_kernel asinF x n BS pid y (pid * BS + l) = asinF (x (pid * BS + l))) ∧
    (∀ pid l, l < BS → n ≤ pid * BS + l →
      asin_kernel asinF x n BS pid y (pid * BS + l) = y (pid * BS + l)) ∧
    (∀ i, i < n → asinLaunch asinF x n BS y i = asinF (x i)) ∧
    (∀ x2 : Nat → Int, (∀ i, i < n → x i = x2 i) →
      asinLaunch asinF x n BS y = asinLaunch asinF x2 n BS y) := by
  refine ⟨?_, ?_, ?_, ?_, ?_⟩
  · intro pid addr haddr
    rw [asin_kernel_read]
    exact if_neg (by omega)
  · intro pid l hl hin
    rw [asin_kernel_read]
    exact if_pos (by omega)
  · intro pid l hl hout
    rw [asin_kernel_read]
    exact if_neg (by omega)
  · intro i hi
    rw [asinLaunch_read asinF x n BS y i hBS]
    exact if_pos hi
  · intro x2 hx
    funext addr
    rw [asinLaunch_read asinF x n BS y addr hBS,
      asinLaunch_read asinF x2 n BS y addr hBS]
    by_cases h : addr < n
    · rw [if_pos h, if_pos h, hx addr h]
    · rw [if_neg h, if_neg h]

/-- Witness for C2: a concrete launch (n = 3, BLOCK_SIZE = 2) writes
`asin(x[1])` at offset 1. -/
theorem asin_kernel_block_behaviour_witness :
    asinLaunch (fun v => v + 1) (fun i => (i : Int)) 3 2 (fun _ => 0) 1 = 2 := by
  have h := asin_kernel_block_behaviour (fun v => v + 1) (fun i => (i : Int))
    3 2 (fun _ => 0) (by decide)
  have h2 := h.2.2.2.1 1 (by decide)
  rw [h2]
  decide

/-- C10: the asin launch leaves every element of the output buffer at offset
`≥ n_elements` unchanged: the store mask `offsets < n_elements` protects the
tail of the output tensor. -/
theorem asinLaunch_frame (asinF : Int → Int) (x : Nat → Int) (n BS : Nat)
    (y : Nat → Int) (hBS : 0 < BS) :
    ∀ i, n ≤ i → asinLaunch asinF x n BS y i = y i := by
  intro i hi
  rw [asinLaunch_read asinF x n BS y i hBS]
  exact if_neg (by omega)

/-- Witness for C10: with n = 2, BLOCK_SIZE = 2, the prior value at offset 3
survives the launch. -/
theorem asinLaunch_frame_witness :
    asinLaunch (fun v => v) (fun _ => 5) 2 2 (fun i => (i : Int)) 3 = 3 :=
  asinLaunch_frame (fun v => v) (fun _ => 5) 2 2 (fun i => (i : Int))
    (by decide) 3 (by decide)

/-! ## Behaviour of the matmul kernel -/

theorem rowmajor_lt (i j M N : Nat) (hi : i < M) (hj : j < N) :
    i * N + j < M * N := by
  have h1 : i * N + j < (i + 1) * N := by rw [Nat.succ_mul]; omega
  have h2 : (i + 1) * N ≤ M * N := Nat.mul_le_mul_right N hi
  omega

theorem rowmajor_inj (i j i2 j2 N : Nat) (hj : j < N) (hj2 : j2 < N)
    (h : i * N + j = i2 * N + j2) : i = i2 ∧ j = j2 := by
  have hN : 0 < N := by omega
  have h1 : (i * N + j) / N = i := by
    rw [Nat.mul_comm i N, Nat.mul_add_div hN, Nat.div_eq_of_lt hj, Nat.add_zero]
  have h2 : (i2 * N + j2) / N = i2 := by
    rw [Nat.mul_comm i2 N, Nat.mul_add_div hN, Nat.div_eq_of_lt hj2, Nat.add_zero]
  have hii : i = i2 := by rw [← h1, ← h2, h]
  subst hii
  constructor
  · rfl
  · omega

theorem div_add_mod_self (a b : Nat) : a / b * b + a % b = a := by
  have h1 := Nat.div_add_mod a b
  have h2 : b * (a / b) = a / b * b := Nat.mul_comm _ _
  omega

/-- The accumulator only reads in-shape elements of A and B: memories that
agree there give the same accumulator. -/
theorem accEntry_congr (m m2 : Nat → Int)
    (baseA baseB M N K sam sak sbk sbn BM BN BK pm pn r c : Nat)
    (hA : ∀ i2 k2, i2 < M → k2 < K →
      m (baseA + i2 * sam + k2 * sak) = m2 (baseA + i2 * sam + k2 * sak))
    (hB : ∀ k2 j2, k2 < K → j2 < N →
      m (baseB + k2 * sbk + j2 * sbn) = m2 (baseB + k2 * sbk + j2 * sbn)) :
    ∀ t, accEntry m baseA baseB M N K sam sak sbk sbn BM BN BK pm pn r c t =
      accEntry m2 baseA baseB M N K sam sak sbk sbn BM BN BK pm pn r c t := by
  intro t
  induction t with
  | zero => rfl
  | succ t ih =>
    unfold accEntry
    rw [ih]
    congr 1
    apply Finset.sum_congr rfl
    intro kk _
    unfold loadBlock
    by_cases ha : pm * BM + r < M ∧ t * BK + kk < K
    · by_cases hb : t * BK + kk < K ∧ pn * BN + c < N
      · rw [if_pos ha, if_pos ha, if_pos hb, if_pos hb,
          hA _ _ ha.1 ha.2, hB _ _ hb.1 hb.2]
      · rw [if_pos ha, if_pos ha, if_neg hb, if_neg hb,
          hA _ _ ha.1 ha.2]
    · rw [if_neg ha, if_neg ha, zero_mul, zero_mul]

/-- One program of the matmul kernel writes only inside the C region
`[baseC, baseC + M * N)` (contiguous C strides). -/
theorem matmulProgram_frame (f16 : Int → Int)
    (baseA baseB baseC M N K sam sak sbk sbn BM BN BK G pid : Nat)
    (m : Nat → Int) (addr : Nat)
    (haddr : addr < baseC ∨ baseC + M * N ≤ addr) :
    matmulProgram f16 baseA baseB baseC M N K sam sak sbk sbn N 1
      BM BN BK G pid m addr = m addr := by
  unfold matmulProgram
  apply storeBlock_ne
  intro r c _ _ h0 h1
  have h := rowmajor_lt _ _ M N h0 h1
  omega

/-- The whole matmul launch writes only inside the C region. -/
theorem matmulLaunchMem_frame (f16 : Int → Int)
    (baseA baseB baseC M N K sam sak sbk sbn BM BN BK G : Nat)
    (m : Nat → Int) (addr : Nat)
    (haddr : addr < baseC ∨ baseC + M * N ≤ addr) :
    matmulLaunchMem f16 baseA baseB baseC M N K sam sak sbk sbn N 1
      BM BN BK G m addr = m addr := by
  unfold matmulLaunchMem
  apply foldl_preserve
  intro mm q _
  exact matmulProgram_frame f16 baseA baseB baseC M N K sam sak sbk sbn
    BM BN BK G q mm addr haddr

/-- Central characterisation of the launch: with contiguous strides and the C
region disjoint from A and B, the value left at C entry `(i, j)` is the
down-cast of the final accumulator of the program owning tile
`(i / BM, j / BN)`, computed from the original memory. -/
theorem matmulLaunchMem_value (f16 : Int → Int)
    (baseA baseB baseC M N K BM BN BK G : Nat) (m : Nat → Int)
    (hBM : 0 < BM) (hBN : 0 < BN) (hG : 0 < G)
    (hdA : baseA + M * K ≤ baseC ∨ baseC + M * N ≤ baseA)
    (hdB : baseB + K * N ≤ baseC ∨ baseC + M * N ≤ baseB)
    (i j : Nat) (hi : i < M) (hj : j < N) :
    matmulLaunchMem f16 baseA baseB baseC M N K K 1 N 1 N 1 BM BN BK G m
      (baseC + (i * N + j)) =
      f16 (accEntry m baseA baseB M N K K 1 N 1 BM BN BK
        (i / BM) (j / BN) (i % BM) (j % BN) (tlCdiv K BK)) := by
  obtain ⟨p, hp, hpp⟩ := pidPair_surjective M N BM BN G hG (i / BM) (j / BN)
    (div_lt_tlCdiv i BM M hBM hi) (div_lt_tlCdiv j BN N hBN hj)
  unfold matmulLaunchMem
  refine foldl_unique_write
    (fun m2 => (∀ i2 k2, i2 < M → k2 < K →
        m2 (baseA + i2 * K + k2 * 1) = m (baseA + i2 * K + k2 * 1)) ∧
      (∀ k2 j2, k2 < K → j2 < N →
        m2 (baseB + k2 * N + j2 * 1) = m (baseB + k2 * N + j2 * 1)))
    _ (baseC + (i * N + j)) _ p (List.range (tlCdiv M BM * tlCdiv N BN))
    ?_ ?_ ?_ m ⟨fun _ _ _ _ => rfl, fun _ _ _ _ => rfl⟩ (List.mem_range.mpr hp)
  · -- every program preserves the A and B regions
    intro m2 q _ hInv
    constructor
    · intro i2 k2 hi2 hk2
      rw [matmulProgram_frame]
      · exact hInv.1 i2 k2 hi2 hk2
      · have h := rowmajor_lt i2 k2 M K hi2 hk2
        rcases hdA with h1 | h1
        · left; omega
        · right; omega
    · intro k2 j2 hk2 hj2
      rw [matmulProgram_frame]
      · exact hInv.2 k2 j2 hk2 hj2
      · have h := rowmajor_lt k2 j2 K N hk2 hj2
        rcases hdB with h1 | h1
        · left; omega
        · right; omega
  · -- the owning program stores the accumulator entry at (i, j)
    intro m2 hInv
    unfold matmulProgram
    have hfst : (pidPair M N BM BN G p).1 = i / BM := by rw [hpp]
    have hsnd : (pidPair M N BM BN G p).2 = j / BN := by rw [hpp]
    rw [hfst, hsnd]
    have hieq : i / BM * BM + i % BM = i := div_add_mod_self i BM
    have hjeq : j / BN * BN + j % BN = j := div_add_mod_self j BN
    have haddr : baseC + (i / BM * BM + i % BM) * N + (j / BN * BN + j % BN) * 1 =
        baseC + (i * N + j) := by
      rw [hieq, hjeq, Nat.mul_one, Nat.add_assoc]
    rw [← haddr]
    rw [storeBlock_eq baseC N 1 M N (i / BM * BM) (j / BN * BN) BM BN _ m2
      (i % BM) (j % BN) (Nat.mod_lt _ hBM) (Nat.mod_lt _ hBN)
      (by rw [hieq]; exact hi) (by rw [hjeq]; exact hj) ?_]
    · congr 1
      exact accEntry_congr m2 m baseA baseB M N K K 1 N 1 BM BN BK
        (i / BM) (j / BN) (i % BM) (j % BN) hInv.1 hInv.2 (tlCdiv K BK)
    · intro r2 c2 hr2 hc2 h02 h12 he
      have he2 : (i / BM * BM + r2) * N + (j / BN * BN + c2) =
          (i / BM * BM + i % BM) * N + (j / BN * BN + j % BN) := by omega
      have hjn : j / BN * BN + j % BN < N := by rw [hjeq]; exact hj
      obtain ⟨e1, e2⟩ := rowmajor_inj _ _ _ _ N h12 hjn he2
      exact ⟨by omega, by omega⟩
  · -- no other program touches the address of (i, j)
    intro m2 q hql hqp
    unfold matmulProgram
    apply storeBlock_ne
    intro r2 c2 hr2 hc2 h0 h1 he
    apply hqp
    apply pidPair_injective M N BM BN G hG q p (List.mem_range.mp hql) hp
    have he2 : ((pidPair M N BM BN G q).1 * BM + r2) * N +
        ((pidPair M N BM BN G q).2 * BN + c2) = i * N + j := by omega
    obtain ⟨e1, e2⟩ := rowmajor_inj _ _ i j N h1 hj he2
    have hq1 : i / BM = (pidPair M N BM BN G q).1 :=
      Nat.div_eq_of_lt_le (by omega) (by rw [Nat.succ_mul]; omega)
    have hq2 : j / BN = (pidPair M N BM BN G q).2 :=
      Nat.div_eq_of_lt_le (by omega) (by rw [Nat.succ_mul]; omega)
    rw [hpp]
    exact Prod.ext_iff.mpr ⟨hq1.symm, hq2.symm⟩

/-- Splitting a sum over `T * BK` indices into `T` blocks of `BK`. -/
theorem sum_blocks (g : Nat → Int) (BK : Nat) :
    ∀ T, (∑ t ∈ Finset.range T, ∑ kk ∈ Finset.range BK, g (t * BK + kk)) =
      ∑ k ∈ Finset.range (T * BK), g k := by
  intro T
  induction T with
  | zero => rw [Nat.zero_mul]; rfl
  | succ T ih =>
    rw [Finset.sum_range_succ, ih, Nat.succ_mul]
    rw [Finset.range_eq_Ico,
      ← Finset.sum_Ico_consecutive g (Nat.zero_le (T * BK)) (Nat.le_add_right _ BK)]
    congr 1
    have h2 : T * BK + BK - T * BK = BK := by omega
    rw [Finset.sum_Ico_eq_sum_range, Finset.sum_Ico_eq_sum_range, h2]
    simp only [Nat.sub_zero, Nat.zero_add]

/-- The final accumulator of the program owning `(i, j)` is the inner product
of row `i` of A with column `j` of B: the K loop sums `tlCdiv K BK` dot
products of zero-padded blocks, which collapse to the `K` in-bounds terms. -/
theorem accEntry_sum (m : Nat → Int) (baseA baseB M N K BM BN BK : Nat)
    (i j : Nat) (hi : i < M) (hj : j < N) (hBK : 0 < BK) :
    accEntry m baseA baseB M N K K 1 N 1 BM BN BK
      (i / BM) (j / BN) (i % BM) (j % BN) (tlCdiv K BK) =
      ∑ k ∈ Finset.range K, m (baseA + i * K + k) * m (baseB + k * N + j) := by
  have hieq : i / BM * BM + i % BM = i := div_add_mod_self i BM
  have hjeq : j / BN * BN + j % BN = j := div_add_mod_self j BN
  have hload : ∀ t kk : Nat,
      loadBlock m baseA K 1 M K (i / BM * BM) (t * BK) (i % BM) kk *
        loadBlock m baseB N 1 K N (t * BK) (j / BN * BN) kk (j % BN) =
      (if t * BK + kk < K then
        m (baseA + i * K + (t * BK + kk)) * m (baseB + (t * BK + kk) * N + j)
      else 0) := by
    intro t kk
    unfold loadBlock
    by_cases hk : t * BK + kk < K
    · rw [if_pos ⟨by omega, hk⟩, if_pos ⟨hk, by omega⟩, if_pos hk,
        show baseA + (i / BM * BM + i % BM) * K + (t * BK + kk) * 1 =
          baseA + i * K + (t * BK + kk) by rw [hieq, Nat.mul_one],
        show baseB + (t * BK + kk) * N + (j / BN * BN + j % BN) * 1 =
          baseB + (t * BK + kk) * N + j by rw [hjeq, Nat.mul_one]]
    · rw [if_neg (fun hcond => hk hcond.2), if_neg (fun hcond => hk hcond.1),
        if_neg hk, zero_mul]
  have hAcc : ∀ t, accEntry m baseA baseB M N K K 1 N 1 BM BN BK
      (i / BM) (j / BN) (i % BM) (j % BN) t =
      ∑ t2 ∈ Finset.range t, ∑ kk ∈ Finset.range BK,
        (if t2 * BK + kk < K then
          m (baseA + i * K + (t2 * BK + kk)) * m (baseB + (t2 * BK + kk) * N + j)
        else 0) := by
    intro t
    induction t with
    | zero => rfl
    | succ t ih =>
      unfold accEntry
      rw [ih, Finset.sum_range_succ]
      congr 1
      apply Finset.sum_congr rfl
      intro kk _
      exact hload t kk
  rw [hAcc, sum_blocks (fun k => if k < K then
    m (baseA + i * K + k) * m (baseB + k * N + j) else 0) BK (tlCdiv K BK)]
  rw [← Finset.sum_subset (Finset.range_subset.mpr (le_tlCdiv_mul K BK hBK))
    (fun k _ hk => if_neg (fun hlt => hk (Finset.mem_range.mpr hlt)))]
  apply Finset.sum_congr rfl
  intro k hk
  exact if_pos (Finset.mem_range.mp hk)

/-- C1: under the wrapper's preconditions (`a.shape[1] == b.shape[0]`, both
inputs contiguous), `matmul(a, b)` returns the matrix product: entry `(i, j)`
of the result is `∑ k, A[i, k] * B[k, j]` (floating point idealised as exact
arithmetic). -/
theorem matmul_computes_product (BM BN BK G : Nat) (a b : Tensor2)
    (hBM : 0 < BM) (hBN : 0 < BN) (hBK : 0 < BK) (hG : 0 < G)
    (hdim : a.cols = b.rows) (hca : a.is_contiguous = true)
    (hcb : b.is_contiguous = true) (i j : Nat)
    (hi : i < a.rows) (hj : j < b.cols) :
    Option.map (fun c => c.data (i * b.cols + j)) (matmul BM BN BK G a b) =
      some (∑ k ∈ Finset.range a.cols,
        a.data (i * a.cols + k) * b.data (k * b.cols + j)) := by
  have hbeq : (a.cols == b.rows) = true := beq_iff_eq.mpr hdim
  have hcond : ((a.cols == b.rows) && a.is_contiguous && b.is_contiguous) = true := by
    rw [hbeq, hca, hcb]; rfl
  have hca2 := hca
  have hcb2 := hcb
  unfold Tensor2.is_contiguous at hca2 hcb2
  rw [Bool.and_eq_true] at hca2 hcb2
  have hs0 : a.stride0 = b.rows := (beq_iff_eq.mp hca2.1).trans hdim
  have hs1 : a.stride1 = 1 := beq_iff_eq.mp hca2.2
  have hs2 : b.stride0 = b.cols := beq_iff_eq.mp hcb2.1
  have hs3 : b.stride1 = 1 := beq_iff_eq.mp hcb2.2
  unfold matmul
  rw [if_pos hcond, Option.map_some']
  show some (matmulLaunchMem (fun v => v) 0 (a.rows * a.cols)
      (a.rows * a.cols + b.rows * b.cols) a.rows b.cols b.rows
      a.stride0 a.stride1 b.stride0 b.stride1 b.cols 1 BM BN BK G
      (packMem a b) (a.rows * a.cols + b.rows * b.cols + (i * b.cols + j))) = _
  rw [hs0, hs1, hs2, hs3]
  have hdA : 0 + a.rows * b.rows ≤ a.rows * a.cols + b.rows * b.cols ∨
      a.rows * a.cols + b.rows * b.cols + a.rows * b.cols ≤ 0 := by
    left
    have h : a.rows * a.cols = a.rows * b.rows := by rw [hdim]
    omega
  have hdB : a.rows * a.cols + b.rows * b.cols ≤
      a.rows * a.cols + b.rows * b.cols ∨
      a.rows * a.cols + b.rows * b.cols + a.rows * b.cols ≤ a.rows * a.cols := by
    left; omega
  rw [matmulLaunchMem_value (fun v => v) 0 (a.rows * a.cols)
    (a.rows * a.cols + b.rows * b.cols) a.rows b.cols b.rows BM BN BK G
    (packMem a b) hBM hBN hG hdA hdB i j hi hj]
  rw [accEntry_sum (packMem a b) 0 (a.rows * a.cols) a.rows b.cols b.rows
    BM BN BK i j hi hj hBK]
  apply congrArg
  refine Finset.sum_congr (by rw [hdim]) ?_
  intro k hk
  rw [Finset.mem_range] at hk
  have hk2 : k < b.rows := hdim ▸ hk
  have hA : packMem a b (0 + i * b.rows + k) = a.data (i * a.cols + k) := by
    unfold packMem
    have haddr : 0 + i * b.rows + k = i * a.cols + k := by
      rw [hdim]; omega
    rw [haddr]
    exact if_pos (rowmajor_lt i k a.rows a.cols hi hk)
  have hB : packMem a b (a.rows * a.cols + k * b.cols + j) =
      b.data (k * b.cols + j) := by
    unfold packMem
    have h1 := rowmajor_lt k j b.rows b.cols hk2 hj
    rw [if_neg (by omega), if_pos (by omega)]
    congr 1
    omega
  rw [hA, hB]

/-- Witness for C1: a concrete 1 × 1 product, `[[2]] * [[3]] = [[6]]`. -/
theorem matmul_computes_product_witness :
    Option.map (fun c => c.data (0 * 1 + 0))
      (matmul 1 1 1 1 ⟨1, 1, 1, 1, fun _ => 2⟩ ⟨1, 1, 1, 1, fun _ => 3⟩) =
      some 6 := by
  have h := matmul_computes_product 1 1 1 1
    ⟨1, 1, 1, 1, fun _ => 2⟩ ⟨1, 1, 1, 1, fun _ => 3⟩
    (by decide) (by decide) (by decide) (by decide) rfl rfl rfl 0 0
    (by decide) (by decide)
  rw [h]
  decide

/-- C4: all loads and stores are boundary-checked on both axes: the launch
never writes outside the C region determined by C's declared shape, and the
stored results depend only on the in-shape elements of A and B — out-of-bounds
lanes are zero-padded and never read memory, so they do not affect any
in-bounds entry of the result. -/
theorem matmul_boundary_checked (f16 : Int → Int)
    (baseA baseB baseC M N K BM BN BK G : Nat) (m m2 : Nat → Int)
    (hBM : 0 < BM) (hBN : 0 < BN) (hG : 0 < G)
    (hdA : baseA + M * K ≤ baseC ∨ baseC + M * N ≤ baseA)
    (hdB : baseB + K * N ≤ baseC ∨ baseC + M * N ≤ baseB) :
    (∀ addr, addr < baseC ∨ baseC + M * N ≤ addr →
      matmulLaunchMem f16 baseA baseB baseC M N K K 1 N 1 N 1 BM BN BK G m
        addr = m addr) ∧
    ((∀ i2 k2, i2 < M → k2 < K →
        m (baseA + i2 * K + k2 * 1) = m2 (baseA + i2 * K + k2 * 1)) →
      (∀ k2 j2, k2 < K → j2 < N →
        m (baseB + k2 * N + j2 * 1) = m2 (baseB + k2 * N + j2 * 1)) →
      ∀ i j, i < M → j < N →
        matmulLaunchMem f16 baseA baseB baseC M N K K 1 N 1 N 1 BM BN BK G m
          (baseC + (i * N + j)) =
        matmulLaunchMem f16 baseA baseB baseC M N K K 1 N 1 N 1 BM BN BK G m2
          (baseC + (i * N + j))) := by
  constructor
  · intro addr haddr
    exact matmulLaunchMem_frame f16 baseA baseB baseC M N K K 1 N 1
      BM BN BK G m addr haddr
  · intro hA hB i j hi hj
    rw [matmulLaunchMem_value f16 baseA baseB baseC M N K BM BN BK G m
      hBM hBN hG hdA hdB i j hi hj,
      matmulLaunchMem_value f16 baseA baseB baseC M N K BM BN BK G m2
      hBM hBN hG hdA hdB i j hi hj]
    congr 1
    exact accEntry_congr m m2 baseA baseB M N K K 1 N 1 BM BN BK
      (i / BM) (j / BN) (i % BM) (j % BN) hA hB (tlCdiv K BK)

/-- Witness for C4: a concrete launch leaves the address below the C region
untouched. -/
theorem matmul_boundary_checked_witness :
    matmulLaunchMem (fun v => v) 0 1 2 1 1 1 1 1 1 1 1 1 1 1 1 1
      (fun _ => 9) 1 = 9 :=
  (matmul_boundary_checked (fun v => v) 0 1 2 1 1 1 1 1 1 1
    (fun _ => 9) (fun _ => 9) (by decide) (by decide) (by decide)
    (by decide) (by decide)).1 1 (Or.inl (by decide))

/-- C5: the accumulator is kept in full precision through every iteration of
the K loop (the recursion adds raw dot products, with no cast), and the value
stored to C is exactly the final accumulator passed once through the `f16`
down-cast, after the loop and before the store. -/
theorem matmul_downcast_once (f16 : Int → Int)
    (baseA baseB baseC M N K BM BN BK G : Nat) (m : Nat → Int)
    (hBM : 0 < BM) (hBN : 0 < BN) (hG : 0 < G)
    (hdA : baseA + M * K ≤ baseC ∨ baseC + M * N ≤ baseA)
    (hdB : baseB + K * N ≤ baseC ∨ baseC + M * N ≤ baseB)
    (i j : Nat) (hi : i < M) (hj : j < N) :
    matmulLaunchMem f16 baseA baseB baseC M N K K 1 N 1 N 1 BM BN BK G m
      (baseC + (i * N + j)) =
      f16 (accEntry m baseA baseB M N K K 1 N 1 BM BN BK
        (i / BM) (j / BN) (i % BM) (j % BN) (tlCdiv K BK)) ∧
    (∀ t, accEntry m baseA baseB M N K K 1 N 1 BM BN BK
        (i / BM) (j / BN) (i % BM) (j % BN) (t + 1) =
      accEntry m baseA baseB M N K K 1 N 1 BM BN BK
        (i / BM) (j / BN) (i % BM) (j % BN) t +
        ∑ kk ∈ Finset.range BK,
          loadBlock m baseA K 1 M K (i / BM * BM) (t * BK) (i % BM) kk *
            loadBlock m baseB N 1 K N (t * BK) (j / BN * BN) kk (j % BN)) :=
  ⟨matmulLaunchMem_value f16 baseA baseB baseC M N K BM BN BK G m
    hBM hBN hG hdA hdB i j hi hj, fun _ => rfl⟩

/-- Witness for C5: with the down-cast `f16 = (2 * ·)` the stored value is the
cast of the accumulator `3 * 5`. -/
theorem matmul_downcast_once_witness :
    matmulLaunchMem (fun v => 2 * v) 0 1 2 1 1 1 1 1 1 1 1 1 1 1 1 1
      (fun a => if a = 0 then 3 else if a = 1 then 5 else 7) (2 + (0 * 1 + 0)) =
      30 := by
  have h := (matmul_downcast_once (fun v => 2 * v) 0 1 2 1 1 1 1 1 1 1
    (fun a => if a = 0 then 3 else if a = 1 then 5 else 7)
    (by decide) (by decide) (by decide) (by decide) (by decide) 0 0
    (by decide) (by decide)).1
  rw [h]
  decide

/-- C9: the matmul launch never modifies its inputs: every address of the A
region and of the B region holds its original value after the launch; only
the freshly allocated (disjoint) C region is written. -/
theorem matmul_inputs_unchanged (f16 : Int → Int)
    (baseA baseB baseC M N K sam sak sbk sbn BM BN BK G : Nat) (m : Nat → Int)
    (hdA : baseA + M * K ≤ baseC ∨ baseC + M * N ≤ baseA)
    (hdB : baseB + K * N ≤ baseC ∨ baseC + M * N ≤ baseB) :
    ∀ addr, (baseA ≤ addr ∧ addr < baseA + M * K) ∨
        (baseB ≤ addr ∧ addr < baseB + K * N) →
      matmulLaunchMem f16 baseA baseB baseC M N K sam sak sbk sbn N 1
        BM BN BK G m addr = m addr := by
  intro addr haddr
  apply matmulLaunchMem_frame
  rcases haddr with h | h
  · rcases hdA with h2 | h2
    · left; omega
    · right; omega
  · rcases hdB with h2 | h2
    · left; omega
    · right; omega

/-- Witness for C9: address 0 (inside the A region) keeps its value 4. -/
theorem matmul_inputs_unchanged_witness :
    matmulLaunchMem (fun v => v) 0 1 2 1 1 1 1 1 1 1 1 1 1 1 1 1
      (fun _ => 4) 0 = 4 :=
  matmul_inputs_unchanged (fun v => v) 0 1 2 1 1 1 1 1 1 1 1 1 1 1
    (fun _ => 4) (by decide) (by decide) 0 (Or.inl (by decide))

/-! ## Launch-site assertions (C6) -/

/-- C6 counterexample: the custom-libdevice-path cell of the asin notebook
launches the kernel with no assertion directly before it: with an input
tensor that is not on the device, a stated precondition fails and yet the
launch proceeds and raises no `AssertionError`. -/
theorem launch_assertions_counterexample :
    (Tensor1.mk 4 false (fun _ => 0)).is_cuda = false ∧
    (asinCustomCell (fun v => v) (Tensor1.mk 4 false (fun _ => 0))
      (fun _ => 0) 2).isSome = true :=
  ⟨rfl, rfl⟩

/-- C6 (amended): the matmul wrapper raises `AssertionError` iff a dimension
or contiguity precondition fails, the default-path asin cell raises iff one
tensor is not on the device — in both cases with no kernel invocation — while
the custom-path asin launch performs no assertion of its own and always
invokes the kernel. -/
theorem launch_assertions (BM BN BK G : Nat) (a b : Tensor2)
    (asinF : Int → Int) (x out : Tensor1) (g : Nat → Int) (BS : Nat) :
    ((matmul BM BN BK G a b = none) ↔
      ¬(a.cols = b.rows ∧ a.is_contiguous = true ∧ b.is_contiguous = true)) ∧
    ((asinDefaultCell asinF x out BS = none) ↔
      ¬(x.is_cuda = true ∧ out.is_cuda = true)) ∧
    (asinCustomCell asinF x g BS).isSome = true := by
  refine ⟨?_, ?_, rfl⟩
  · unfold matmul
    by_cases h : ((a.cols == b.rows) && a.is_contiguous && b.is_contiguous) = true
    · rw [if_pos h]
      rw [Bool.and_eq_true, Bool.and_eq_true] at h
      have hprop : a.cols = b.rows ∧ a.is_contiguous = true ∧
          b.is_contiguous = true := ⟨beq_iff_eq.mp h.1.1, h.1.2, h.2⟩
      constructor
      · intro hnone
        exact absurd hnone (Option.some_ne_none _)
      · intro hn
        exact absurd hprop hn
    · rw [if_neg h]
      constructor
      · intro _ hprop
        apply h
        rw [beq_iff_eq.mpr hprop.1, hprop.2.1, hprop.2.2]
        rfl
      · intro _
        rfl
  · unfold asinDefaultCell
    by_cases h : (x.is_cuda && out.is_cuda) = true
    · rw [if_pos h]
      rw [Bool.and_eq_true] at h
      constructor
      · intro hnone
        exact absurd hnone (Option.some_ne_none _)
      · intro hn
        exact absurd h hn
    · rw [if_neg h]
      rw [Bool.and_eq_true] at h
      exact ⟨fun _ => h, fun _ => rfl⟩

/-! ## Autotuning (C7) -/

/-- One `triton.Config` of the autotune decorator. -/
structure TritonConfig where
  BLOCK_SIZE_M : Nat
  BLOCK_SIZE_N : Nat
  BLOCK_SIZE_K : Nat
  GROUP_SIZE_M : Nat
  num_stages : Nat
  num_warps : Nat
deriving DecidableEq

/-- The eight configurations declared in the `triton.autotune` decorator of
the matmul kernel, in source order. -/
def matmulConfigs : List TritonConfig :=
  [⟨128, 256, 64, 8, 4, 4⟩, ⟨64, 256, 32, 8, 4, 4⟩, ⟨128, 128, 32, 8, 4, 4⟩,
   ⟨128, 64, 32, 8, 4, 4⟩, ⟨64, 128, 32, 8, 4, 4⟩, ⟨128, 32, 32, 8, 4, 4⟩,
   ⟨64, 32, 32, 8, 5, 2⟩, ⟨32, 64, 32, 8, 5, 2⟩]

/-- The autotune cache key, `key=['M', 'N', 'K']`. -/
def autotuneKey (M N K : Nat) : Nat × Nat × Nat := (M, N, K)

/-- Modelled from the spec: the benchmark step of cached autotuning (the
autotuner itself lives in the external library, not in this repository) —
pick the best-timed configuration from the declared list. -/
def pickBest (bench : TritonConfig → Nat) :
    TritonConfig → List TritonConfig → TritonConfig
  | best, [] => best
  | best, c :: rest => pickBest bench (if bench c < bench best then c else best) rest

/-- Modelled from the spec: cached autotuning keyed on the problem
dimensions — on a cache hit the stored configuration is reused unchanged; on
a miss the configurations are benchmarked once and the winner is cached. -/
def autotuneSelect (bench : TritonConfig → Nat)
    (cache : List ((Nat × Nat × Nat) × TritonConfig)) (k : Nat × Nat × Nat) :
    TritonConfig × List ((Nat × Nat × Nat) × TritonConfig) :=
  match cache.find? (fun e => decide (e.1 = k)) with
  | some e => (e.2, cache)
  | none =>
    match matmulConfigs with
    | [] => (⟨0, 0, 0, 0, 0, 0⟩, cache)
    | c :: rest => (pickBest bench c rest, (k, pickBest bench c rest) :: cache)

theorem pickBest_mem (bench : TritonConfig → Nat) :
    ∀ (l : List TritonConfig) (best : TritonConfig),
      pickBest bench best l ∈ best :: l := by
  intro l
  induction l with
  | nil =>
    intro best
    unfold pickBest
    exact List.mem_cons_self best []
  | cons c rest ih =>
    intro best
    unfold pickBest
    by_cases hb : bench c < bench best
    · rw [if_pos hb]
      have h := ih c
      rcases List.mem_cons.mp h with h2 | h2
      · rw [h2]
        exact List.mem_cons_of_mem _ (List.mem_cons_self c rest)
      · exact List.mem_cons_of_mem _ (List.mem_cons_of_mem _ h2)
    · rw [if_neg hb]
      have h := ih best
      rcases List.mem_cons.mp h with h2 | h2
      · rw [h2]
        exact List.mem_cons_self best _
      · exact List.mem_cons_of_mem _ (List.mem_cons_of_mem _ h2)

theorem autotuneSelect_hit (bench : TritonConfig → Nat)
    (cache : List ((Nat × Nat × Nat) × TritonConfig)) (k : Nat × Nat × Nat)
    (e : (Nat × Nat × Nat) × TritonConfig)
    (h : cache.find? (fun e2 => decide (e2.1 = k)) = some e) :
    autotuneSelect bench cache k = (e.2, cache) := by
  unfold autotuneSelect
  rw [h]

theorem autotuneSelect_miss (bench : TritonConfig → Nat)
    (cache : List ((Nat × Nat × Nat) × TritonConfig)) (k : Nat × Nat × Nat)
    (h : cache.find? (fun e2 => decide (e2.1 = k)) = none) :
    autotuneSelect bench cache k =
      (pickBest bench ⟨128, 256, 64, 8, 4, 4⟩
        [⟨64, 256, 32, 8, 4, 4⟩, ⟨128, 128, 32, 8, 4, 4⟩, ⟨128, 64, 32, 8, 4, 4⟩,
         ⟨64, 128, 32, 8, 4, 4⟩, ⟨128, 32, 32, 8, 4, 4⟩, ⟨64, 32, 32, 8, 5, 2⟩,
         ⟨32, 64, 32, 8, 5, 2⟩],
       (k, pickBest bench ⟨128, 256, 64, 8, 4, 4⟩
        [⟨64, 256, 32, 8, 4, 4⟩, ⟨128, 128, 32, 8, 4, 4⟩, ⟨128, 64, 32, 8, 4, 4⟩,
         ⟨64, 128, 32, 8, 4, 4⟩, ⟨128, 32, 32, 8, 4, 4⟩, ⟨64, 32, 32, 8, 5, 2⟩,
         ⟨32, 64, 32, 8, 5, 2⟩]) :: cache) := by
  unfold autotuneSelect
  rw [h]
  rfl

/-- C7: the configuration is always selected from the fixed list of exactly
eight declared `triton.Config` entries, each with `GROUP_SIZE_M = 8`; the
cache key is exactly `(M, N, K)`; and a later launch with the same key reuses
the cached configuration regardless of any new benchmark results, so
selection is deterministic in the key. -/
theorem autotune_behaviour :
    matmulConfigs.length = 8 ∧
    (∀ c ∈ matmulConfigs, c.GROUP_SIZE_M = 8) ∧
    (∀ M N K, autotuneKey M N K = (M, N, K)) ∧
    (∀ bench cache k, (∀ e ∈ cache, e.2 ∈ matmulConfigs) →
      (autotuneSelect bench cache k).1 ∈ matmulConfigs) ∧
    (∀ bench1 bench2 cache k,
      (autotuneSelect bench2 (autotuneSelect bench1 cache k).2 k).1 =
        (autotuneSelect bench1 cache k).1) := by
  refine ⟨rfl, by decide, fun _ _ _ => rfl, ?_, ?_⟩
  · intro bench cache k hc
    cases hfind : cache.find? (fun e2 => decide (e2.1 = k)) with
    | some e =>
      rw [autotuneSelect_hit bench cache k e hfind]
      exact hc e (List.mem_of_find?_eq_some hfind)
    | none =>
      rw [autotuneSelect_miss bench cache k hfind]
      exact pickBest_mem bench
        [⟨64, 256, 32, 8, 4, 4⟩, ⟨128, 128, 32, 8, 4, 4⟩, ⟨128, 64, 32, 8, 4, 4⟩,
         ⟨64, 128, 32, 8, 4, 4⟩, ⟨128, 32, 32, 8, 4, 4⟩, ⟨64, 32, 32, 8, 5, 2⟩,
         ⟨32, 64, 32, 8, 5, 2⟩] ⟨128, 256, 64, 8, 4, 4⟩
  · intro bench1 bench2 cache k
    cases hfind : cache.find? (fun e2 => decide (e2.1 = k)) with
    | some e =>
      rw [autotuneSelect_hit bench1 cache k e hfind,
        autotuneSelect_hit bench2 cache k e hfind]
    | none =>
      rw [autotuneSelect_miss bench1 cache k hfind]
      have h2 : List.find? (fun e2 => decide (e2.1 = k))
          ((k, pickBest bench1 ⟨128, 256, 64, 8, 4, 4⟩
            [⟨64, 256, 32, 8, 4, 4⟩, ⟨128, 128, 32, 8, 4, 4⟩,
             ⟨128, 64, 32, 8, 4, 4⟩, ⟨64, 128, 32, 8, 4, 4⟩,
             ⟨128, 32, 32, 8, 4, 4⟩, ⟨64, 32, 32, 8, 5, 2⟩,
             ⟨32, 64, 32, 8, 5, 2⟩]) :: cache) =
          some (k, pickBest bench1 ⟨128, 256, 64, 8, 4, 4⟩
            [⟨64, 256, 32, 8, 4, 4⟩, ⟨128, 128, 32, 8, 4, 4⟩,
             ⟨128, 64, 32, 8, 4, 4⟩, ⟨64, 128, 32, 8, 4, 4⟩,
             ⟨128, 32, 32, 8, 4, 4⟩, ⟨64, 32, 32, 8, 5, 2⟩,
             ⟨32, 64, 32, 8, 5, 2⟩]) := by
        rw [List.find?_cons_of_pos _ (by simp)]
      rw [autotuneSelect_hit bench2 _ k _ h2]

/-- Witness for C7: the selection on an empty cache is one of the eight
declared configurations. -/
theorem autotune_behaviour_witness :
    (autotuneSelect (fun _ => 0) [] (512, 512, 512)).1 ∈ matmulConfigs :=
  autotune_behaviour.2.2.2.1 (fun _ => 0) [] (512, 512, 512)
    (fun e he => absurd he (List.not_mem_nil e))

/-! ## Final self-checks of the notebooks (C8) -/

/-- `torch.max(torch.abs(output_torch - output_triton))`, the value printed at
the end of each asin-notebook cell (reals idealised as rationals). -/
def maxAbsDiff (a b : List ℚ) : ℚ :=
  (List.zipWith (fun u v => |u - v|) a b).foldl max 0

/-- Modelled from the spec: `torch.allclose(input, other, rtol, atol)` of the
external reference library — true iff
`|input[i] - other[i]| ≤ atol + rtol * |other[i]|` for every element. -/
def allclose (a b : List ℚ) (atol rtol : ℚ) : Bool :=
  (List.range a.length).all fun i =>
    decide (|a.getD i 0 - b.getD i 0| ≤ atol + rtol * |b.getD i 0|)

/-- The final cell of the matmul notebook: print the pass message iff
`torch.allclose(triton_output, torch_output, atol=1e-2, rtol=0)`. -/
def matmulCheckMessage (triton_output torch_output : List ℚ) : String :=
  if allclose triton_output torch_output (1 / 100) 0 then
    "Triton and Torch match"
  else "Triton and Torch differ"

theorem foldl_max_bounds (l : List ℚ) :
    ∀ init : ℚ, (∀ x ∈ l, x ≤ l.foldl max init) ∧ init ≤ l.foldl max init := by
  induction l with
  | nil =>
    intro init
    exact ⟨fun x hx => absurd hx (List.not_mem_nil x), le_refl init⟩
  | cons c l ih =>
    intro init
    rw [List.foldl_cons]
    constructor
    · intro x hx
      rcases List.mem_cons.mp hx with h | h
      · rw [h]
        exact le_trans (le_max_right init c) (ih (max init c)).2
      · exact (ih (max init c)).1 x h
    · exact le_trans (le_max_left init c) (ih (max init c)).2

theorem foldl_max_mem (l : List ℚ) :
    ∀ init : ℚ, l.foldl max init ∈ init :: l := by
  induction l with
  | nil =>
    intro init
    exact List.mem_cons_self init []
  | cons c l ih =>
    intro init
    rw [List.foldl_cons]
    have h := ih (max init c)
    rcases List.mem_cons.mp h with h2 | h2
    · rcases max_choice init c with h3 | h3
      · rw [h2, h3]
        exact List.mem_cons_self init _
      · rw [h2, h3]
        exact List.mem_cons_of_mem _ (List.mem_cons_self c l)
    · exact List.mem_cons_of_mem _ (List.mem_cons_of_mem _ h2)

/-- C8: each notebook ends with a self-check against the reference: the
matmul notebook prints the pass message iff every element of the Triton
output is within `atol = 1e-2` (with `rtol = 0`) of the Torch output,
printing the fail message otherwise; the asin notebook prints
`max |output_torch - output_triton|`, an upper bound of every elementwise
difference that is itself one of the differences (or 0). -/
theorem final_checks_behaviour (t o x y : List ℚ) :
    (matmulCheckMessage t o = "Triton and Torch match" ↔
      ∀ i, i < t.length → |t.getD i 0 - o.getD i 0| ≤ 1 / 100) ∧
    (matmulCheckMessage t o ≠ "Triton and Torch match" →
      matmulCheckMessage t o = "Triton and Torch differ") ∧
    (∀ d ∈ List.zipWith (fun u v => |u - v|) x y, d ≤ maxAbsDiff x y) ∧
    (maxAbsDiff x y = 0 ∨
      maxAbsDiff x y ∈ List.zipWith (fun u v => |u - v|) x y) := by
  have hallclose : allclose t o (1 / 100) 0 = true ↔
      ∀ i, i < t.length → |t.getD i 0 - o.getD i 0| ≤ 1 / 100 := by
    unfold allclose
    rw [List.all_eq_true]
    constructor
    · intro h i hi
      have h2 := h i (List.mem_range.mpr hi)
      rw [decide_eq_true_iff] at h2
      rw [zero_mul, add_zero] at h2
      exact h2
    · intro h i hi
      rw [List.mem_range] at hi
      rw [decide_eq_true_iff, zero_mul, add_zero]
      exact h i hi
  refine ⟨?_, ?_, ?_, ?_⟩
  · unfold matmulCheckMessage
    by_cases h : allclose t o (1 / 100) 0 = true
    · rw [if_pos h]
      simp only [true_iff]
      exact hallclose.mp h
    · rw [if_neg h]
      constructor
      · intro hmsg
        exact absurd hmsg (by decide)
      · intro hcond
        exact absurd (hallclose.mpr hcond) h
  · unfold matmulCheckMessage
    by_cases h : allclose t o (1 / 100) 0 = true
    · rw [if_pos h]
      intro hne
      exact absurd rfl hne
    · rw [if_neg h]
      intro _
      rfl
  · intro d hd
    exact (foldl_max_bounds (List.zipWith (fun u v => |u - v|) x y) 0).1 d hd
  · have h := foldl_max_mem (List.zipWith (fun u v => |u - v|) x y) 0
    rcases List.mem_cons.mp h with h2 | h2
    · exact Or.inl h2
    · exact Or.inr h2

/-- Witness for C8: a 1-element Triton output within tolerance of the Torch
output prints the pass message. -/
theorem final_checks_behaviour_witness :
    matmulCheckMessage [1 / 200] [0] = "Triton and Torch match" :=
  (final_checks_behaviour [1 / 200] [0] [] []).1.mpr
    (by
      intro i hi
      have h0 : i = 0 := by
        simp only [List.length_singleton] at hi
        omega
      subst h0
      simp only [List.getD, List.get?_cons_zero, Option.getD_some]
      rw [sub_zero, abs_of_nonneg (by norm_num : (0 : ℚ) ≤ 1 / 200)]
      norm_num)

/-- Witness for C6 (amended): a dimension mismatch makes the matmul wrapper
raise (return `none`) without launching. -/
theorem launch_assertions_witness :
    matmul 1 1 1 1 ⟨1, 1, 1, 1, fun _ => 0⟩ ⟨2, 1, 1, 1, fun _ => 0⟩ = none :=
  (launch_assertions 1 1 1 1 ⟨1, 1, 1, 1, fun _ => 0⟩ ⟨2, 1, 1, 1, fun _ => 0⟩
    (fun v => v) ⟨0, true, fun _ => 0⟩ ⟨0, true, fun _ => 0⟩
    (fun _ => 0) 1).1.mpr (fun h => absurd h.1 (by decide))

/-- C3: the grouped pid mapping is injective over the 1-D grid of
`cdiv(M, BM) * cdiv(N, BN)` programs and covers every tile, so the programs
write pairwise disjoint tiles of C and every entry of C belongs to exactly
one program. -/
theorem matmul_grid_partition (M N BM BN G : Nat)
    (hBM : 0 < BM) (hBN : 0 < BN) (hG : 0 < G) :
    (∀ p q, p < tlCdiv M BM * tlCdiv N BN → q < tlCdiv M BM * tlCdiv N BN →
      pidPair M N BM BN G p = pidPair M N BM BN G q → p = q) ∧
    (∀ m n, m < tlCdiv M BM → n < tlCdiv N BN →
      ∃ pid, pid < tlCdiv M BM * tlCdiv N BN ∧
        pidPair M N BM BN G pid = (m, n)) ∧
    (∀ i j, i < M → j < N →
      ∃! pid, pid < tlCdiv M BM * tlCdiv N BN ∧
        pidPair M N BM BN G pid = (i / BM, j / BN)) := by
  refine ⟨pidPair_injective M N BM BN G hG, pidPair_surjective M N BM BN G hG, ?_⟩
  intro i j hi hj
  obtain ⟨p, hp, hpp⟩ := pidPair_surjective M N BM BN G hG (i / BM) (j / BN)
    (div_lt_tlCdiv i BM M hBM hi) (div_lt_tlCdiv j BN N hBN hj)
  refine ⟨p, ⟨hp, hpp⟩, ?_⟩
  intro q hq2
  exact pidPair_injective M N BM BN G hG q p hq2.1 hp (hq2.2.trans hpp.symm)

/-- Witness for C3: the unique program for tile `(1, 1)` on a 2 × 2 grid. -/
theorem matmul_grid_partition_witness :
    ∃ pid, pid < tlCdiv 2 1 * tlCdiv 2 1 ∧ pidPair 2 2 1 1 1 pid = (1, 1) :=
  (matmul_grid_partition 2 2 1 1 1 (by decide) (by decide)
    (by decide)).2.1 1 1 (by decide) (by decide)
